import Mathlib

/- Verification of the word-level language identification core:
   a shallow embedding of `LanguageModel.py` (frequency lexicon plus
   character n-gram Markov model: training, lexicon scoring, character
   scoring) and `LanguageIdentifier.py` (per-token score combination and
   the independent / Viterbi sequence decoders).

   Modelling conventions: Python dicts become insertion-ordered
   association lists (`dget` / `dset`), Python floats become real
   numbers, a raised exception and a `None` return value become explicit
   constructors, and Python strings at the character-model level become
   `List Char`.  Real-number comparisons (float comparisons in the
   source) are modelled with the classical order on `ℝ`, so the decoder
   definitions are `noncomputable`; all dictionary-structure reasoning
   stays kernel-reducible because keys never contain reals. -/

/-- The two configured language identifiers (`GA = "ga"`, `EN = "en"` in
`LanguageIdentifier.py`). -/
inductive Lang where
  | ga : Lang
  | en : Lang
deriving DecidableEq, Inhabited, Repr

/-- Outcome of a call to `LanguageIdentifier.identify`: a returned label
list, a Python `None` return (no branch taken), or an uncaught
exception (`IndexError` on empty input in Viterbi mode). -/
inductive PyResult where
  | ok : List Lang → PyResult
  | retNone : PyResult
  | exn : PyResult
deriving DecidableEq, Repr

/-- Python dict lookup `d.get(k)` on an insertion-ordered association
list: first entry with the given key. -/
def dget {κ α : Type} [DecidableEq κ] : List (κ × α) → κ → Option α
  | [], _ => none
  | (k1, v1) :: rest, k => if k1 = k then some v1 else dget rest k

/-- Python dict assignment `d[k] = v`: update the existing entry in
place, or append a new entry at the end. -/
def dset {κ α : Type} [DecidableEq κ] : List (κ × α) → κ → α → List (κ × α)
  | [], k, v => [(k, v)]
  | (k1, v1) :: rest, k, v =>
    if k1 = k then (k, v) :: rest else (k1, v1) :: dset rest k v

/-- `LanguageModel.START`. -/
def START : Char := '<'

/-- `LanguageModel.END`. -/
def ENDC : Char := '>'

/-- `LanguageModel.UNKNOWN`, the reserved identifier for unseen ngrams. -/
def UNKNOWN : List Char := ['U', 'N', 'K', 'N', 'O', 'W', 'N']

/-- `LanguageModel.OOV = "###"`, the reserved out-of-lexicon entry. -/
def OOV : List Char := ['#', '#', '#']

/-- `LanguageIdentifier.IGNORE = "##IGNORE##"`, the reserved sentinel for
tokens that need no language assignment. -/
def IGNORE : List Char := ['#', '#', 'I', 'G', 'N', 'O', 'R', 'E', '#', '#']

/-- `LanguageModel.CASE_SENSITIVITY_THRESHOLD`. -/
def CASE_SENSITIVITY_THRESHOLD : ℕ := 4

/-- `LanguageModel.word2ngrams`: wrap the word in start/end sentinels
(a second pair when `n ≥ 4`) and list all `n`-length substrings.
`List.range (w.length + 1 - n)` matches Python `range(len(w)-n+1)`,
which is empty when the padded word is shorter than `n`. -/
def word2ngrams (word : List Char) (n : ℕ) : List (List Char) :=
  let w1 := START :: (word ++ [ENDC])
  let w2 := if 4 ≤ n then START :: (w1 ++ [ENDC]) else w1
  (List.range (w2.length + 1 - n)).map (fun i => (w2.drop i).take n)

/-- The state of a `LanguageModel` after construction: n-gram order,
start probabilities, transition probabilities, and the frequency
lexicon in log space. -/
structure LanguageModel where
  n : ℕ
  start_prob : List (List Char × ℝ)
  trans_prob : List (List Char × List (List Char × ℝ))
  lex : List (List Char × ℝ)

/-- `LanguageModel.load_lexicon`: accumulate smoothed frequencies
(case-normalizing words at or above the threshold), add the OOV entry,
and convert everything to log-probabilities.  Input lines are the
already-split `(word, frequency)` pairs. -/
noncomputable def load_lexicon (lines : List (List Char × ℕ)) : List (List Char × ℝ) :=
  let lamb : ℝ := 1 / 10
  let acc := lines.foldl
    (fun (acc : List (List Char × ℝ) × ℕ) (line : List Char × ℕ) =>
      let word := if CASE_SENSITIVITY_THRESHOLD ≤ line.1.length
        then line.1.map Char.toLower else line.1
      (dset acc.1 word ((dget acc.1 word).getD lamb + (line.2 : ℝ)), acc.2 + line.2))
    ([], 0)
  let lex := dset acc.1 OOV lamb
  lex.map (fun e => (e.1, Real.log (e.2 / ((acc.2 : ℝ) + lamb * (lex.length : ℝ)))))

/-- `LanguageModel.lex_score`: normalize the query word, then
`self.lex.get(word, self.lex[self.OOV])`.  Python evaluates the default
`self.lex[self.OOV]` eagerly, so a missing OOV entry is a `KeyError`
(`none`) even for in-lexicon words. -/
def lex_score (m : LanguageModel) (word : List Char) : Option ℝ :=
  let w := if CASE_SENSITIVITY_THRESHOLD ≤ word.length
    then word.map Char.toLower else word
  match dget m.lex OOV with
  | none => none
  | some oovp => some ((dget m.lex w).getD oovp)

/-- One transition lookup of `LanguageModel.char_score`: direct entry if
both the source ngram and the specific transition are known, else the
source's UNKNOWN fallback, else the global UNKNOWN→UNKNOWN fallback;
`none` is a Python `KeyError` on a missing fallback entry. -/
def trans_lookup (m : LanguageModel) (g g2 : List Char) : Option ℝ :=
  match dget m.trans_prob g with
  | none =>
    match dget m.trans_prob UNKNOWN with
    | none => none
    | some d => dget d UNKNOWN
  | some d =>
    match dget d g2 with
    | none => dget d UNKNOWN
    | some p => some p

/-- One iteration of the transition loop in `char_score`, adding the
looked-up transition log-probability to the accumulator. -/
noncomputable def char_score_step (m : LanguageModel) (acc : Option ℝ)
    (p : List Char × List Char) : Option ℝ :=
  acc.bind (fun logp => (trans_lookup m p.1 p.2).map (fun q => logp + q))

/-- `LanguageModel.char_score`: split the word into ngrams, add the
start probability of the first ngram (direct entry or UNKNOWN
fallback), then add a transition probability for every consecutive
ngram pair.  `none` models an uncaught exception (`ngrams[0]` on an
empty ngram list, or a `KeyError` on a missing fallback). -/
noncomputable def char_score (m : LanguageModel) (word : List Char) : Option ℝ :=
  match word2ngrams word m.n with
  | [] => none
  | g0 :: rest =>
    let start :=
      match dget m.start_prob g0 with
      | none => dget m.start_prob UNKNOWN
      | some p => some p
    (List.zip (g0 :: rest) rest).foldl (char_score_step m) start

/-- Mirror of the branch condition guarding the start-probability lookup
in `char_score`: true when scoring `word` takes the
`start_prob[UNKNOWN]` fallback because the first ngram has no direct
entry. -/
def char_score_start_fallback (m : LanguageModel) (word : List Char) : Bool :=
  match word2ngrams word m.n with
  | [] => false
  | g0 :: _ => (dget m.start_prob g0).isNone

/-- The mutable counters accumulated by the corpus loop of
`LanguageModel.train`. -/
structure TrainCounts where
  token_total : ℕ
  start_count : List (List Char × ℝ)
  trans_count : List (List Char × List (List Char × ℝ))
  trans_total : List (List Char × ℕ)
  charset : Finset Char

/-- One iteration of the corpus loop of `LanguageModel.train`: pad the
word with a single sentinel pair, update the token total, the character
set, the start-ngram counter, and all transition counters. -/
noncomputable def process_token (n : ℕ) (lamb : ℝ) (c : TrainCounts)
    (word : List Char) (count : ℕ) : TrainCounts :=
  let token := START :: (word ++ [ENDC])
  let c1 : TrainCounts :=
    { c with
      token_total := c.token_total + count
      charset := c.charset ∪ token.toFinset
      start_count := dset c.start_count (token.take n)
        ((dget c.start_count (token.take n)).getD lamb + (count : ℝ)) }
  (List.range (token.length - n)).foldl
    (fun c2 i =>
      let g := (token.drop i).take n
      let g2 := (token.drop (i + 1)).take n
      let inner := (dget c2.trans_count g).getD []
      { c2 with
        trans_count := dset c2.trans_count g
          (dset inner g2 ((dget inner g2).getD lamb + (count : ℝ)))
        trans_total := dset c2.trans_total g
          ((dget c2.trans_total g).getD 0 + count) })
    c1

/-- `LanguageModel.train`: accumulate counts over all lexicon lines,
seed the global UNKNOWN→UNKNOWN fallback from the character set, then
convert start and transition counts into smoothed log-probabilities,
adding the UNKNOWN fallbacks.  (`trans_total[g]` is keyed exactly like
`trans_count`, so the `getD 0` default is never taken.)  The model's
lexicon comes from the same lexicon file. -/
noncomputable def train (lines : List (List Char × ℕ)) (n : ℕ) (lamb : ℝ) :
    LanguageModel :=
  let c := lines.foldl (fun acc line => process_token n lamb acc line.1 line.2)
    { token_total := 0, start_count := [], trans_count := [],
      trans_total := [], charset := ∅ }
  let tp0 : List (List Char × List (List Char × ℝ)) :=
    dset [] UNKNOWN (dset [] UNKNOWN (Real.log (1 / ((c.charset.card : ℝ) + 1))))
  let denom : ℝ := (c.token_total : ℝ) + lamb * ((c.start_count.length : ℝ) + 1)
  let sp := c.start_count.foldl (fun sp e => dset sp e.1 (Real.log (e.2 / denom))) []
  let sp := dset sp UNKNOWN (Real.log (lamb / denom))
  let tp := c.trans_count.foldl
    (fun tp e =>
      let denomg : ℝ :=
        (((dget c.trans_total e.1).getD 0 : ℕ) : ℝ) + lamb * ((e.2.length : ℝ) + 1)
      let inner := e.2.foldl (fun ip e2 => dset ip e2.1 (Real.log (e2.2 / denomg))) []
      dset tp e.1 (dset inner UNKNOWN (Real.log (lamb / denomg))))
    tp0
  { n := n, start_prob := sp, trans_prob := tp, lex := load_lexicon lines }

/-- The per-language weighted scores returned by
`LanguageIdentifier.score` (the dict `{GA: ..., EN: ...}`). -/
structure ScorePair where
  ga : ℝ
  en : ℝ

/-- `LanguageIdentifier.score`: the IGNORE sentinel gets the fixed score
pair `{GA: 1, EN: 1}`; otherwise exponentiate the lexicon and character
log-scores, normalize each evidence type across the two languages, and
either use only the relative character score (when both raw lexicon
scores equal the respective OOV score) or the convex combination
weighted by `lex_weight`.  `none` propagates an exception raised by any
of the underlying model lookups. -/
noncomputable def score (mga men : LanguageModel) (lex_weight : ℝ)
    (word : List Char) : Option ScorePair :=
  if word = IGNORE then some ⟨1, 1⟩ else
  match lex_score mga word, lex_score men word, char_score mga word,
        char_score men word, lex_score mga OOV, lex_score men OOV with
  | some lga, some len1, some cga, some cen1, some oga, some oen =>
    let lexga := Real.exp lga
    let lexen := Real.exp len1
    let chga := Real.exp cga
    let chen := Real.exp cen1
    let lexga_rel := lexga / (lexga + lexen)
    let lexen_rel := lexen / (lexga + lexen)
    let chga_rel := chga / (chga + chen)
    let chen_rel := chen / (chga + chen)
    if lexga = Real.exp oga ∧ lexen = Real.exp oen then
      some ⟨Real.log chga_rel, Real.log chen_rel⟩
    else
      some ⟨Real.log (lex_weight * lexga_rel + (1 - lex_weight) * chga_rel),
            Real.log (lex_weight * lexen_rel + (1 - lex_weight) * chen_rel)⟩
  | _, _, _, _, _, _ => none

/-- `LanguageIdentifier.max_argmax` specialized to the two-element term
lists the decoder builds: Python `max(enumerate(it), key=snd)` keeps
the first maximum, so index 1 wins only on a strict increase. -/
noncomputable def max_argmax (a b : ℝ) : ℕ × ℝ :=
  if b > a then (1, b) else (0, a)

/-- `langs[i]` for `langs = [GA, EN]`; `max_argmax` only produces the
indices 0 and 1. -/
def langIdx : ℕ → Lang
  | 0 => Lang.ga
  | _ => Lang.en

/-- The Viterbi column `V[t]`: max log-probability per language. -/
structure VCell where
  ga : ℝ
  en : ℝ

/-- The backpointer column `S[t]`: most likely previous language per
language. -/
structure SCell where
  ga : Lang
  en : Lang

/-- Dict lookup `S[t][lang]`. -/
def SCell.get (s : SCell) : Lang → Lang
  | Lang.ga => s.ga
  | Lang.en => s.en

/-- The transition dict `trans_p` built by `identify_viterbi`:
`trans_p[l][l] = p` and `trans_p[l][l'] = 1 - p` off the diagonal. -/
def transP (p : ℝ) : Lang → Lang → ℝ :=
  fun l2 l => if l2 = l then p else 1 - p

/-- One iteration of the token loop of `identify_viterbi` (for `t ≥ 1`):
for each language, take max and argmax over the two predecessor
languages of `V[t-1][l2] + log(trans_p[l2][lang]) + scores[lang]`. -/
noncomputable def viterbiStep (s : Lang → ℝ) (tp : Lang → Lang → ℝ)
    (prev : VCell) : VCell × SCell :=
  let mga := max_argmax (prev.ga + Real.log (tp Lang.ga Lang.ga) + s Lang.ga)
    (prev.en + Real.log (tp Lang.en Lang.ga) + s Lang.ga)
  let men := max_argmax (prev.ga + Real.log (tp Lang.ga Lang.en) + s Lang.en)
    (prev.en + Real.log (tp Lang.en Lang.en) + s Lang.en)
  (⟨mga.2, men.2⟩, ⟨langIdx mga.1, langIdx men.1⟩)

/-- The forward pass of `identify_viterbi` over the tokens after the
first: returns the final column `V[-1]` and the backpointer columns
`S[1..]` in order. -/
noncomputable def viterbi_forward (sc : String → Lang → ℝ) (tp : Lang → Lang → ℝ) :
    VCell → List String → VCell × List SCell
  | v0, [] => (v0, [])
  | v0, t :: rest =>
    let vs := viterbiStep (sc t) tp v0
    let r := viterbi_forward sc tp vs.1 rest
    (r.1, vs.2 :: r.2)

/-- The path-reconstruction loop of `identify_viterbi`:
`languages[t-1] = S[t][languages[t]]`, walking backwards from the final
label.  The recursion consumes `S[1..]` front-first, so each label is
the relevant `S` cell applied to the head of the reconstructed
suffix. -/
def backtrack : List SCell → Lang → List Lang
  | [], l => [l]
  | s :: rest, l => s.get (backtrack rest l).headI :: backtrack rest l

/-- `LanguageIdentifier.identify_independent`: per token, pick GA when
its score is at least the EN score, else EN. -/
noncomputable def identify_independent (sc : String → Lang → ℝ)
    (tokens : List String) : List Lang :=
  tokens.map (fun token =>
    if sc token Lang.ga ≥ sc token Lang.en then Lang.ga else Lang.en)

/-- `LanguageIdentifier.identify_viterbi`: initialize `V[0]` from the
start probabilities and the first token's scores, run the forward pass
over the remaining tokens, pick the final label by `max_argmax` over
`V[-1]`, and backtrack.  `tokens[0]` on an empty list raises
`IndexError`, modelled as `.exn`. -/
noncomputable def identify_viterbi (sc : String → Lang → ℝ) (tokens : List String)
    (transition_probability start_probability : ℝ) : PyResult :=
  match tokens with
  | [] => .exn
  | t0 :: rest =>
    let v0 : VCell :=
      ⟨Real.log start_probability + sc t0 Lang.ga,
       Real.log (1 - start_probability) + sc t0 Lang.en⟩
    let r := viterbi_forward sc (transP transition_probability) v0 rest
    .ok (backtrack r.2 (langIdx (max_argmax r.1.ga r.1.en).1))

/-- Python `str.lower()`, character by character. -/
def lowerStr (s : String) : String := ⟨s.data.map Char.toLower⟩

/-- `LanguageIdentifier.identify`: the one-word "sea" override, then
dispatch on the method string; an unrecognized method falls off the end
of the function and returns Python `None`. -/
noncomputable def identify (sc : String → Lang → ℝ) (tokens : List String)
    (method : String) (transition_probability start_probability : ℝ) : PyResult :=
  if tokens.length = 1 ∧ lowerStr tokens.headI = "sea" then .ok [Lang.ga]
  else if method = "independent" then .ok (identify_independent sc tokens)
  else if method = "viterbi" then
    identify_viterbi sc tokens transition_probability start_probability
  else .retNone

/-- The per-token choice made by `identify_independent`, named for use
in the equivalence proof between the two decoding modes. -/
noncomputable def indLab (sc : String → Lang → ℝ) (t : String) : Lang :=
  if sc t Lang.ga ≥ sc t Lang.en then Lang.ga else Lang.en

/-- A concrete emission score assignment used to separate the two
decoding modes: GA always scores `-1`, EN always scores `-1/2`. -/
noncomputable def scX : String → Lang → ℝ :=
  fun _ l => match l with
  | Lang.ga => -1
  | Lang.en => -(1 / 2)

/-- A 4-gram model trained on the one-word lexicon `{"ab": 1}`,
exhibiting the padding mismatch between `train` and `word2ngrams`. -/
noncomputable def M4 : LanguageModel := train [(['a', 'b'], 1)] 4 (1 / 1000)

/-- A trivial model used where the scored branch never consults the
model at all. -/
def Mdummy : LanguageModel :=
  { n := 1, start_prob := [], trans_prob := [], lex := [] }

/-- A 1-gram model trained on the one-word lexicon `{"a": 2}`. -/
noncomputable def MgaW : LanguageModel := train [(['a'], 2)] 1 (1 / 1000)

/-- A 1-gram model trained on the one-word lexicon `{"b": 3}`. -/
noncomputable def MenW : LanguageModel := train [(['b'], 3)] 1 (1 / 1000)

theorem dget_dset {κ α : Type} [DecidableEq κ] (d : List (κ × α)) (k k1 : κ) (v : α) :
    dget (dset d k v) k1 = if k = k1 then some v else dget d k1 := by
  induction d with
  | nil => simp [dset, dget]
  | cons hd tl ih =>
    obtain ⟨a, b⟩ := hd
    by_cases h1 : a = k
    · subst h1
      by_cases h2 : a = k1 <;> simp [dset, dget, h2]
    · by_cases h2 : a = k1
      · subst h2
        have : ¬ k = a := fun h => h1 h.symm
        simp [dset, dget, h1, this]
      · simp [dset, dget, h1, h2, ih]

theorem dget_dset_self {κ α : Type} [DecidableEq κ] (d : List (κ × α)) (k : κ) (v : α) :
    dget (dset d k v) k = some v := by
  rw [dget_dset, if_pos rfl]

theorem foldl_inv {σ β : Type} (P : σ → Prop) (f : σ → β → σ) :
    ∀ (l : List β) (s : σ), P s → (∀ s b, P s → P (f s b)) → P (l.foldl f s) := by
  intro l
  induction l with
  | nil => intro s h _; exact h
  | cons b t ih => intro s h hstep; exact ih (f s b) (hstep s b h) hstep

theorem lang_cases (l : Lang) : l = Lang.ga ∨ l = Lang.en := by
  cases l
  · exact Or.inl rfl
  · exact Or.inr rfl

/-- Claim C8: for a one-token input whose token case-insensitively
equals the affirmative particle "sea", `identify` short-circuits and
returns `[GA]` for every score function, method and parameter values,
so scoring is never consulted. -/
theorem identify_sea_override (sc : String → Lang → ℝ) (t : String)
    (method : String) (p q : ℝ) (h : lowerStr t = "sea") :
    identify sc [t] method p q = .ok [Lang.ga] := by
  simp [identify, h]

/-- Witness for C8 at the concrete input `["Sea"]` with an arbitrary
method and parameters. -/
theorem identify_sea_override_witness :
    identify (fun _ _ => (0 : ℝ)) ["Sea"] "viterbi" (39 / 50) (3 / 4) = .ok [Lang.ga] :=
  identify_sea_override _ "Sea" "viterbi" (39 / 50) (3 / 4) (by decide)

/-- Claim C9: when the method string is neither "independent" nor
"viterbi" and the affirmative-particle override does not fire,
`identify` falls through every branch and returns Python `None`. -/
theorem identify_unknown_method (sc : String → Lang → ℝ) (tokens : List String)
    (method : String) (p q : ℝ)
    (hsea : ¬ (tokens.length = 1 ∧ lowerStr tokens.headI = "sea"))
    (hi : method ≠ "independent") (hv : method ≠ "viterbi") :
    identify sc tokens method p q = .retNone := by
  simp [identify, hsea, hi, hv]

/-- Witness for C9 at the concrete input `["a", "b"]` with method
"fancy". -/
theorem identify_unknown_method_witness :
    identify (fun _ _ => (0 : ℝ)) ["a", "b"] "fancy" (39 / 50) (3 / 4) = .retNone :=
  identify_unknown_method _ ["a", "b"] "fancy" (39 / 50) (3 / 4)
    (by decide) (by decide) (by decide)

/-- Claim C10: on the empty token sequence, independent mode returns the
empty list without error (both through `identify` and directly), while
viterbi mode raises when reading the first token. -/
theorem identify_empty_tokens (sc : String → Lang → ℝ) (p q : ℝ) :
    identify sc [] "independent" p q = .ok [] ∧
    identify_independent sc [] = [] ∧
    identify sc [] "viterbi" p q = .exn ∧
    identify_viterbi sc [] p q = .exn := by
  refine ⟨?_, rfl, ?_, rfl⟩
  · simp [identify, identify_independent]
  · simp [identify, identify_viterbi]

/-- Counterexample for claim C5 as stated: on the IGNORE sentinel,
`score` returns the pair `{GA: 1, EN: 1}`, not `log(1) = 0` for each
language — the returned common value is `1`, which differs from `0`. -/
theorem score_ignore_not_zero :
    score Mdummy Mdummy 1 IGNORE = some ⟨1, 1⟩ ∧
    score Mdummy Mdummy 1 IGNORE ≠ some ⟨0, 0⟩ := by
  constructor
  · simp [score]
  · simp only [score, if_pos rfl]
    intro h
    have h1 : (⟨1, 1⟩ : ScorePair) = ⟨0, 0⟩ := Option.some.inj h
    have h2 : (1 : ℝ) = 0 := congrArg ScorePair.ga h1
    exact one_ne_zero h2

/-- Claim C5 amended: on the IGNORE sentinel, `score` returns the same
neutral value for both languages — the constant `1`, not `log(1) = 0` —
for every pair of models and every lexicon weight, so the token has no
differential influence on decoding. -/
theorem score_ignore_eq_one (mga men : LanguageModel) (lw : ℝ) :
    score mga men lw IGNORE = some ⟨1, 1⟩ := by
  simp [score]

theorem viterbi_forward_snd_length (sc : String → Lang → ℝ) (tp : Lang → Lang → ℝ) :
    ∀ (rest : List String) (v0 : VCell),
    ((viterbi_forward sc tp v0 rest).2).length = rest.length := by
  intro rest
  induction rest with
  | nil => intro v0; rfl
  | cons t tl ih => intro v0; simp [viterbi_forward, ih]

theorem backtrack_length : ∀ (ss : List SCell) (l : Lang),
    (backtrack ss l).length = ss.length + 1 := by
  intro ss
  induction ss with
  | nil => intro l; rfl
  | cons s tl ih => intro l; simp [backtrack, ih]

/-- Claim C1: on every non-empty token sequence, both decoding modes
return a label list of exactly the input's length whose every element
is one of the two configured languages; the Viterbi mode in particular
returns normally (no exception, no Python `None`). -/
theorem decode_shape (sc : String → Lang → ℝ) (tokens : List String) (p q : ℝ)
    (h : tokens ≠ []) :
    (identify_independent sc tokens).length = tokens.length ∧
    (∀ l ∈ identify_independent sc tokens, l = Lang.ga ∨ l = Lang.en) ∧
    ∃ ls, identify_viterbi sc tokens p q = .ok ls ∧
      ls.length = tokens.length ∧ ∀ l ∈ ls, l = Lang.ga ∨ l = Lang.en := by
  refine ⟨by simp [identify_independent], fun l _ => lang_cases l, ?_⟩
  match tokens, h with
  | t0 :: rest, _ =>
    refine ⟨_, rfl, ?_, fun l _ => lang_cases l⟩
    show (backtrack _ _).length = _
    rw [backtrack_length, viterbi_forward_snd_length]
    simp

/-- Witness for C1 at the concrete input `["a", "b"]` with constant
scores and arbitrary decoder parameters. -/
theorem decode_shape_witness :
    (identify_independent (fun _ _ => (0 : ℝ)) ["a", "b"]).length =
      (["a", "b"] : List String).length ∧
    (∀ l ∈ identify_independent (fun _ _ => (0 : ℝ)) ["a", "b"],
      l = Lang.ga ∨ l = Lang.en) ∧
    ∃ ls, identify_viterbi (fun _ _ => (0 : ℝ)) ["a", "b"] (39 / 50) (3 / 4) = .ok ls ∧
      ls.length = (["a", "b"] : List String).length ∧
      ∀ l ∈ ls, l = Lang.ga ∨ l = Lang.en :=
  decode_shape (fun _ _ => (0 : ℝ)) ["a", "b"] (39 / 50) (3 / 4) (by simp)

theorem train_n_eq (lines : List (List Char × ℕ)) (n : ℕ) (lamb : ℝ) :
    (train lines n lamb).n = n := by
  simp [train]

theorem train_start_prob_unknown (lines : List (List Char × ℕ)) (n : ℕ) (lamb : ℝ) :
    (dget (train lines n lamb).start_prob UNKNOWN).isSome = true := by
  simp only [train]
  rw [dget_dset_self]
  rfl

theorem train_trans_prob_inv (lines : List (List Char × ℕ)) (n : ℕ) (lamb : ℝ) :
    (dget (train lines n lamb).trans_prob UNKNOWN).isSome = true ∧
    ∀ g d, dget (train lines n lamb).trans_prob g = some d →
      (dget d UNKNOWN).isSome = true := by
  simp only [train]
  apply foldl_inv (P := fun tp => (dget tp UNKNOWN).isSome = true ∧
    ∀ g d, dget tp g = some d → (dget d UNKNOWN).isSome = true)
  · constructor
    · rw [dget_dset_self]; rfl
    · intro g d hg
      rw [dget_dset] at hg
      by_cases hu : UNKNOWN = g
      · rw [if_pos hu] at hg
        cases hg
        rw [dget_dset_self]; rfl
      · rw [if_neg hu] at hg
        cases hg
  · intro tp e ih
    constructor
    · rw [dget_dset]
      by_cases he : e.1 = UNKNOWN
      · rw [if_pos he]; rfl
      · rw [if_neg he]; exact ih.1
    · intro g d hg
      rw [dget_dset] at hg
      by_cases he : e.1 = g
      · rw [if_pos he] at hg
        cases hg
        rw [dget_dset_self]; rfl
      · rw [if_neg he] at hg
        exact ih.2 g d hg

theorem trans_lookup_isSome (m : LanguageModel)
    (h2u : (dget m.trans_prob UNKNOWN).isSome = true)
    (h2 : ∀ g d, dget m.trans_prob g = some d → (dget d UNKNOWN).isSome = true)
    (g g2 : List Char) : (trans_lookup m g g2).isSome = true := by
  unfold trans_lookup
  cases hg : dget m.trans_prob g with
  | none =>
    cases hu : dget m.trans_prob UNKNOWN with
    | none => rw [hu] at h2u; cases h2u
    | some d => exact h2 UNKNOWN d hu
  | some d =>
    show (match dget d g2 with
      | none => dget d UNKNOWN
      | some p => some p).isSome = true
    cases hgd : dget d g2 with
    | none => exact h2 g d hg
    | some p => rfl

theorem char_score_fold_isSome (m : LanguageModel)
    (hlk : ∀ g g2, (trans_lookup m g g2).isSome = true) :
    ∀ (l : List (List Char × List Char)) (acc : Option ℝ),
    acc.isSome = true →
    ((l.foldl (char_score_step m) acc)).isSome = true := by
  intro l
  induction l with
  | nil => intro acc h; exact h
  | cons p tl ih =>
    intro acc h
    apply ih
    obtain ⟨x, hx⟩ := Option.isSome_iff_exists.mp h
    obtain ⟨y, hy⟩ := Option.isSome_iff_exists.mp (hlk p.1 p.2)
    simp [char_score_step, hx, hy]

theorem char_score_isSome_of_inv (m : LanguageModel) (word : List Char)
    (h1 : (dget m.start_prob UNKNOWN).isSome = true)
    (h2u : (dget m.trans_prob UNKNOWN).isSome = true)
    (h2 : ∀ g d, dget m.trans_prob g = some d → (dget d UNKNOWN).isSome = true)
    (h : word2ngrams word m.n ≠ []) :
    (char_score m word).isSome = true := by
  unfold char_score
  cases hng : word2ngrams word m.n with
  | nil => exact absurd hng h
  | cons g0 rest =>
    apply char_score_fold_isSome m (trans_lookup_isSome m h2u h2)
    cases hg : dget m.start_prob g0 with
    | none => exact h1
    | some p => rfl

/-- Claim C4: `char_score` is total on trained models: for every
lexicon, n-gram order, smoothing value and every word that splits into
a non-empty ngram list, scoring resolves every lookup (directly or via
a fallback entry installed by `train`) and never fails with a
missing-key error. -/
theorem char_score_total (lines : List (List Char × ℕ)) (n : ℕ) (lamb : ℝ)
    (word : List Char) (h : word2ngrams word n ≠ []) :
    (char_score (train lines n lamb) word).isSome = true := by
  apply char_score_isSome_of_inv
  · exact train_start_prob_unknown lines n lamb
  · exact (train_trans_prob_inv lines n lamb).1
  · exact (train_trans_prob_inv lines n lamb).2
  · rw [train_n_eq]; exact h

/-- Witness for C4: a 2-gram model trained on `{"ab": 1}` scores the
unseen word "xy" without any lookup failure. -/
theorem char_score_total_witness :
    word2ngrams ['x', 'y'] 2 ≠ [] ∧
    (char_score (train [(['a', 'b'], 1)] 2 (1 / 1000)) ['x', 'y']).isSome = true :=
  ⟨by decide, char_score_total [(['a', 'b'], 1)] 2 (1 / 1000) ['x', 'y'] (by decide)⟩

/-- Claim C3 fails on the code (code bug): for the training lexicon
`{"ab": 1}` with n-gram order 4, the first ngram `word2ngrams` produces
for the training word "ab" itself is `"<<ab"` (double padding), but
`train` counted the singly padded token `"<ab>"`, so `"<<ab"` has no
direct `start_prob` or `trans_prob` entry and `char_score` takes the
UNKNOWN start fallback on a word of the training lexicon. -/
theorem train_n4_start_fallback :
    (word2ngrams ['a', 'b'] 4).headI = ['<', '<', 'a', 'b'] ∧
    dget M4.start_prob ['<', '<', 'a', 'b'] = none ∧
    dget M4.trans_prob ['<', '<', 'a', 'b'] = none ∧
    char_score_start_fallback M4 ['a', 'b'] = true :=
  ⟨by decide, rfl, rfl, rfl⟩

/-- Claim C6 fails on the code (code bug): `train` wraps every lexicon
word in a single sentinel pair regardless of the n-gram order.  For
n = 4 and the lexicon `{"ab": 1}` the recorded start ngram is `"<ab>"`
(the first 4 characters of the singly padded token), and the key
`"<<ab"` that double padding would produce is absent. -/
theorem train_n4_single_padding :
    (dget M4.start_prob ['<', 'a', 'b', '>']).isSome = true ∧
    dget M4.start_prob ['<', '<', 'a', 'b'] = none ∧
    (word2ngrams ['a', 'b'] 4).headI ≠ ['<', 'a', 'b', '>'] :=
  ⟨rfl, rfl, by decide⟩

/-- Claim C7: when both languages' raw lexicon scores for a word equal
exactly the respective model's OOV score (the exponentiated comparison
made by the code), `score` ignores the lexicon evidence and returns the
log of each language's relative character score. -/
theorem score_oov_char_only (mga men : LanguageModel) (lw : ℝ) (word : List Char)
    (hw : word ≠ IGNORE) (oga oen cga cen : ℝ)
    (hla : lex_score mga word = some oga) (hoa : lex_score mga OOV = some oga)
    (hlb : lex_score men word = some oen) (hob : lex_score men OOV = some oen)
    (hca : char_score mga word = some cga) (hcb : char_score men word = some cen) :
    score mga men lw word =
      some ⟨Real.log (Real.exp cga / (Real.exp cga + Real.exp cen)),
            Real.log (Real.exp cen / (Real.exp cga + Real.exp cen))⟩ := by
  rw [score, if_neg hw]
  simp only [hla, hlb, hca, hcb, hoa, hob]
  simp

/-- Witness for C7: two 1-gram models trained on `{"a": 2}` and
`{"b": 3}`; the word "c" is absent from both lexicons, so both raw
lexicon scores are the OOV scores and the combiner returns the relative
character scores in log form. -/
theorem score_oov_char_only_witness :
    ∃ cga cen : ℝ, char_score MgaW ['c'] = some cga ∧
      char_score MenW ['c'] = some cen ∧
      score MgaW MenW 1 ['c'] =
        some ⟨Real.log (Real.exp cga / (Real.exp cga + Real.exp cen)),
              Real.log (Real.exp cen / (Real.exp cga + Real.exp cen))⟩ :=
  ⟨_, _, rfl, rfl,
    score_oov_char_only MgaW MenW 1 ['c'] (by decide) _ _ _ _ rfl rfl rfl rfl rfl rfl⟩

theorem one_le_log_three : (1 : ℝ) ≤ Real.log 3 := by
  have h1 : Real.exp 1 ≤ 3 :=
    le_of_lt (lt_of_lt_of_le Real.exp_one_lt_d9 (by norm_num))
  have h2 : Real.exp 1 ≤ Real.exp (Real.log 3) := by
    rw [Real.exp_log (by norm_num : (0 : ℝ) < 3)]
    exact h1
  exact Real.exp_le_exp.mp h2

theorem log_three_quarters : Real.log (3 / 4 : ℝ) = Real.log 3 + Real.log (1 / 4 : ℝ) := by
  rw [← Real.log_mul (by norm_num) (by norm_num)]
  norm_num

/-- Counterexample for claim C2 as stated: with
`transitionProbability = 0.5` but the default start probability 0.75,
Viterbi and independent mode disagree already on a single-token input.
The emission scores `scX` favour EN (`-1/2 > -1`), so independent mode
returns `[EN]`, but the start prior `log(0.75)` versus `log(0.25)`
outweighs the difference and Viterbi returns `[GA]`. -/
theorem viterbi_half_default_start_differs :
    identify_viterbi scX ["x"] (1 / 2) (3 / 4) ≠
      .ok (identify_independent scX ["x"]) := by
  have hcmp : ¬ (Real.log (1 - 3 / 4 : ℝ) + scX "x" Lang.en >
      Real.log (3 / 4 : ℝ) + scX "x" Lang.ga) := by
    have h14 : (1 - 3 / 4 : ℝ) = 1 / 4 := by norm_num
    rw [h14]
    simp only [scX]
    rw [not_lt, log_three_quarters]
    linarith [one_le_log_three]
  have hv : identify_viterbi scX ["x"] (1 / 2) (3 / 4) = .ok [Lang.ga] := by
    simp only [identify_viterbi, viterbi_forward, max_argmax]
    rw [if_neg hcmp]
    rfl
  have hi : identify_independent scX ["x"] = [Lang.en] := by
    have hge : ¬ (scX "x" Lang.ga ≥ scX "x" Lang.en) := by
      simp only [scX]
      norm_num
    simp only [identify_independent, List.map]
    rw [if_neg hge]
  rw [hv, hi]
  intro h
  cases h

theorem transP_ga_ga (p : ℝ) : transP p Lang.ga Lang.ga = p := rfl

theorem transP_en_en (p : ℝ) : transP p Lang.en Lang.en = p := rfl

theorem transP_ga_en (p : ℝ) : transP p Lang.ga Lang.en = 1 - p := rfl

theorem transP_en_ga (p : ℝ) : transP p Lang.en Lang.ga = 1 - p := rfl

theorem viterbiStep_half_ge (s : Lang → ℝ) (b xga xen : ℝ) (h : xga ≥ xen) :
    viterbiStep s (transP (1 / 2)) ⟨b + xga, b + xen⟩ =
      (⟨b + xga + Real.log (1 / 2) + s Lang.ga,
        b + xga + Real.log (1 / 2) + s Lang.en⟩,
       ⟨Lang.ga, Lang.ga⟩) := by
  have h12 : (1 - (1 / 2 : ℝ)) = 1 / 2 := by norm_num
  simp only [viterbiStep, transP_ga_ga, transP_en_en, transP_ga_en, transP_en_ga,
    max_argmax, h12]
  rw [if_neg (not_lt.mpr (by linarith :
    b + xen + Real.log (1 / 2) + s Lang.ga ≤ b + xga + Real.log (1 / 2) + s Lang.ga))]
  rw [if_neg (not_lt.mpr (by linarith :
    b + xen + Real.log (1 / 2) + s Lang.en ≤ b + xga + Real.log (1 / 2) + s Lang.en))]
  rfl

theorem viterbiStep_half_lt (s : Lang → ℝ) (b xga xen : ℝ) (h : ¬ xga ≥ xen) :
    viterbiStep s (transP (1 / 2)) ⟨b + xga, b + xen⟩ =
      (⟨b + xen + Real.log (1 / 2) + s Lang.ga,
        b + xen + Real.log (1 / 2) + s Lang.en⟩,
       ⟨Lang.en, Lang.en⟩) := by
  have h12 : (1 - (1 / 2 : ℝ)) = 1 / 2 := by norm_num
  have hlt : xga < xen := not_le.mp h
  simp only [viterbiStep, transP_ga_ga, transP_en_en, transP_ga_en, transP_en_ga,
    max_argmax, h12]
  rw [if_pos (by linarith :
    b + xga + Real.log (1 / 2) + s Lang.ga < b + xen + Real.log (1 / 2) + s Lang.ga)]
  rw [if_pos (by linarith :
    b + xga + Real.log (1 / 2) + s Lang.en < b + xen + Real.log (1 / 2) + s Lang.en)]
  rfl

theorem viterbi_forward_half (sc : String → Lang → ℝ) :
    ∀ (rest : List String) (t0 : String) (b : ℝ),
    ∃ bf : ℝ,
      viterbi_forward sc (transP (1 / 2))
          ⟨b + sc t0 Lang.ga, b + sc t0 Lang.en⟩ rest =
        (⟨bf + sc (rest.getLastD t0) Lang.ga, bf + sc (rest.getLastD t0) Lang.en⟩,
         ((t0 :: rest).dropLast).map (fun t => ⟨indLab sc t, indLab sc t⟩)) := by
  intro rest
  induction rest with
  | nil =>
    intro t0 b
    exact ⟨b, rfl⟩
  | cons t1 tl ih =>
    intro t0 b
    by_cases h : sc t0 Lang.ga ≥ sc t0 Lang.en
    · obtain ⟨bf, hf⟩ := ih t1 (b + sc t0 Lang.ga + Real.log (1 / 2))
      refine ⟨bf, ?_⟩
      show (let vs := viterbiStep (sc t1) (transP (1 / 2))
              ⟨b + sc t0 Lang.ga, b + sc t0 Lang.en⟩
            let r := viterbi_forward sc (transP (1 / 2)) vs.1 tl
            (r.1, vs.2 :: r.2)) = _
      rw [viterbiStep_half_ge (sc t1) b (sc t0 Lang.ga) (sc t0 Lang.en) h]
      show (let r := viterbi_forward sc (transP (1 / 2))
              ⟨b + sc t0 Lang.ga + Real.log (1 / 2) + sc t1 Lang.ga,
               b + sc t0 Lang.ga + Real.log (1 / 2) + sc t1 Lang.en⟩ tl
            (r.1, (⟨Lang.ga, Lang.ga⟩ : SCell) :: r.2)) = _
      rw [hf]
      simp only [List.getLastD_cons]
      have hdrop : (t0 :: t1 :: tl).dropLast = t0 :: (t1 :: tl).dropLast := by
        simp [List.dropLast]
      rw [hdrop, List.map_cons]
      have hlab : (⟨Lang.ga, Lang.ga⟩ : SCell) = ⟨indLab sc t0, indLab sc t0⟩ := by
        simp [indLab, h]
      rw [hlab]
    · obtain ⟨bf, hf⟩ := ih t1 (b + sc t0 Lang.en + Real.log (1 / 2))
      refine ⟨bf, ?_⟩
      show (let vs := viterbiStep (sc t1) (transP (1 / 2))
              ⟨b + sc t0 Lang.ga, b + sc t0 Lang.en⟩
            let r := viterbi_forward sc (transP (1 / 2)) vs.1 tl
            (r.1, vs.2 :: r.2)) = _
      rw [viterbiStep_half_lt (sc t1) b (sc t0 Lang.ga) (sc t0 Lang.en) h]
      show (let r := viterbi_forward sc (transP (1 / 2))
              ⟨b + sc t0 Lang.en + Real.log (1 / 2) + sc t1 Lang.ga,
               b + sc t0 Lang.en + Real.log (1 / 2) + sc t1 Lang.en⟩ tl
            (r.1, (⟨Lang.en, Lang.en⟩ : SCell) :: r.2)) = _
      rw [hf]
      simp only [List.getLastD_cons]
      have hdrop : (t0 :: t1 :: tl).dropLast = t0 :: (t1 :: tl).dropLast := by
        simp [List.dropLast]
      rw [hdrop, List.map_cons]
      have hlab : (⟨Lang.en, Lang.en⟩ : SCell) = ⟨indLab sc t0, indLab sc t0⟩ := by
        simp [indLab, h]
      rw [hlab]

theorem backtrack_const (sc : String → Lang → ℝ) :
    ∀ (ts : List String) (l : Lang),
    backtrack (ts.map (fun t => ⟨indLab sc t, indLab sc t⟩)) l =
      ts.map (indLab sc) ++ [l] := by
  intro ts
  induction ts with
  | nil => intro l; rfl
  | cons t tl ih =>
    intro l
    show SCell.get ⟨indLab sc t, indLab sc t⟩
        (backtrack (tl.map (fun t => ⟨indLab sc t, indLab sc t⟩)) l).headI ::
      backtrack (tl.map (fun t => ⟨indLab sc t, indLab sc t⟩)) l = _
    rw [ih]
    have hget : ∀ x : Lang, SCell.get ⟨indLab sc t, indLab sc t⟩ x = indLab sc t := by
      intro x; cases x <;> rfl
    rw [hget]
    rfl

theorem map_dropLast_getLastD {α β : Type} (f : α → β) :
    ∀ (rest : List α) (t0 : α),
    ((t0 :: rest).dropLast).map f ++ [f (rest.getLastD t0)] = (t0 :: rest).map f := by
  intro rest
  induction rest with
  | nil => intro t0; rfl
  | cons t1 tl ih =>
    intro t0
    have hdrop : (t0 :: t1 :: tl).dropLast = t0 :: (t1 :: tl).dropLast := by
      simp [List.dropLast]
    rw [hdrop, List.map_cons, List.getLastD_cons, List.cons_append, ih, List.map_cons]
    rfl

theorem langIdx_max_argmax_indLab (sc : String → Lang → ℝ) (bf : ℝ) (t : String) :
    langIdx (max_argmax (bf + sc t Lang.ga) (bf + sc t Lang.en)).1 = indLab sc t := by
  unfold max_argmax indLab
  by_cases hc : sc t Lang.ga ≥ sc t Lang.en
  · rw [if_neg (not_lt.mpr (by linarith : bf + sc t Lang.en ≤ bf + sc t Lang.ga)),
      if_pos hc]
    rfl
  · have hlt : sc t Lang.ga < sc t Lang.en := not_le.mp hc
    rw [if_pos (by linarith : bf + sc t Lang.ga < bf + sc t Lang.en), if_neg hc]
    rfl

/-- Claim C2 amended: with a uniform transition prior
(`transitionProbability = 0.5`) AND a uniform start prior
(`startProbability = 0.5`), Viterbi decoding returns exactly the
independent-mode labeling on every non-empty input.  (With the default
start probability 0.75 the two modes can differ on the first token —
see the counterexample.) -/
theorem viterbi_uniform_eq_independent (sc : String → Lang → ℝ)
    (tokens : List String) (h : tokens ≠ []) :
    identify_viterbi sc tokens (1 / 2) (1 / 2) =
      .ok (identify_independent sc tokens) := by
  match tokens, h with
  | t0 :: rest, _ =>
    have h12 : (1 - (1 / 2 : ℝ)) = 1 / 2 := by norm_num
    simp only [identify_viterbi]
    rw [h12]
    obtain ⟨bf, hf⟩ := viterbi_forward_half sc rest t0 (Real.log (1 / 2))
    rw [hf]
    dsimp only
    rw [langIdx_max_argmax_indLab sc bf (rest.getLastD t0)]
    rw [backtrack_const]
    rw [map_dropLast_getLastD (indLab sc) rest t0]
    rfl

/-- Witness for the amended C2 at the concrete input `["a", "b"]` with
constant scores. -/
theorem viterbi_uniform_eq_independent_witness :
    identify_viterbi (fun _ _ => (0 : ℝ)) ["a", "b"] (1 / 2) (1 / 2) =
      .ok (identify_independent (fun _ _ => (0 : ℝ)) ["a", "b"]) :=
  viterbi_uniform_eq_independent (fun _ _ => (0 : ℝ)) ["a", "b"] (by simp)
